import Mathlib

/-!
# Verification of the deja command-line memoizer core

Shallow embedding of the deja source (src/hash.rs, src/command.rs,
src/cache.rs, src/deja.rs) and proofs about it.

Modelling conventions:
* A BLAKE3 digest is modelled by its computation tree `HashV`: `leaf s` is
  the digest of the byte string `s`, `node l r` is the digest obtained by
  hashing the concatenation of two digests during merkle reduction.  Digest
  equality is modelled as tree equality; two distinct trees denote digests
  that differ except with cryptographic (collision) probability.
* Byte strings (`&str`, `String`, `OsString` contents) are modelled as Lean
  `String`; the Rust byte-lexicographic comparison of UTF-8 strings agrees
  with the code-point lexicographic order used here.
* `SystemTime` instants and `Duration`s are modelled as natural numbers
  (nanoseconds); `SystemTime::now()` is passed in explicitly as `now`.
* Fallible operations return `Option`; `none` models a propagated error or
  a panic, as noted at each definition.
-/

namespace Deja

/-- A BLAKE3 digest, modelled by its computation tree: `leaf s` is the
digest of the bytes of `s`; `node l r` is the digest of the concatenation
of the digests `l` and `r` (one pairwise step of the merkle reduction). -/
inductive HashV : Type where
  | leaf (s : String) : HashV
  | node (l r : HashV) : HashV
deriving DecidableEq, Repr

/-- One pass of the pairwise merkle reduction used by
`merkle_hash::Algorithm::compute_merkle_hash`: adjacent digests are
combined, a trailing odd digest is carried up unchanged. -/
def reduceOnce : List HashV → List HashV
  | a :: b :: rest => HashV.node a b :: reduceOnce rest
  | l => l

/-- Fuel-indexed merkle reduction loop; the fuel is always at least the
length of the list, which makes the `0` case unreachable. -/
def merkleGo : Nat → List HashV → HashV
  | _, [] => HashV.leaf ""
  | _, [h] => h
  | 0, _ => HashV.leaf ""
  | n + 1, l => merkleGo n (reduceOnce l)

/-- `impl From<&[Hash]> for Hash` (src/hash.rs): the merkle combine of a
sequence of digests; the empty sequence yields the digest of the empty
byte string (`unwrap_or(compute_hash(b""))`).  The repository's own unit
test (`test_from_strings`) pins the singleton case to the element itself. -/
def merkleCombine (l : List HashV) : HashV := merkleGo l.length l

/-- `impl From<&str> for Hash` (src/hash.rs): direct digest of the bytes. -/
def hashString (s : String) : HashV := HashV.leaf s

/-- `impl From<&Option<String>> for Hash` (src/hash.rs lines 47-55): the
contained string's digest when present, the digest of the empty byte
string when absent.  (The same shape models `Option<OsString>`.) -/
def hashOptString : Option String → HashV
  | some s => HashV.leaf s
  | none => HashV.leaf ""

/-- `impl From<&Vec<String>> for Hash` (src/hash.rs): merkle combine of
the member digests, in order. -/
def hashStrings (l : List String) : HashV := merkleCombine (l.map HashV.leaf)

/-- Modelled from the spec: the `Hash` instance for `bool` used by
`ScopeBuilder::hash` (`Hash::from(self.shared)`) is not under src/ (only
its caller is); spec section 4.1 defines it as the digest of one byte,
`0x00` for false and `0x01` for true. -/
def hashBool (b : Bool) : HashV := HashV.leaf (if b then "\x01" else "\x00")

/-- Lexicographic order on environment entries, as produced by Rust's
derived `Ord` on `(&String, &String)` pairs and used by `entries.sort()`
in `impl From<&HashMap<String, String>> for Hash` (src/hash.rs line 152). -/
def pairLe (a b : String × String) : Prop :=
  a.1 < b.1 ∨ (a.1 = b.1 ∧ a.2 ≤ b.2)

instance : DecidableRel pairLe := fun a b => by
  unfold pairLe; infer_instance

instance : IsTotal (String × String) pairLe where
  total a b := by
    rcases lt_trichotomy a.1 b.1 with h | h | h
    · exact Or.inl (Or.inl h)
    · rcases le_total a.2 b.2 with h2 | h2
      · exact Or.inl (Or.inr ⟨h, h2⟩)
      · exact Or.inr (Or.inr ⟨h.symm, h2⟩)
    · exact Or.inr (Or.inl h)

instance : IsTrans (String × String) pairLe where
  trans a b c hab hbc := by
    rcases hab with h1 | ⟨e1, l1⟩
    · rcases hbc with h2 | ⟨e2, _⟩
      · exact Or.inl (h1.trans h2)
      · exact Or.inl (e2 ▸ h1)
    · rcases hbc with h2 | ⟨e2, l2⟩
      · exact Or.inl (e1 ▸ h2)
      · exact Or.inr ⟨e1.trans e2, l1.trans l2⟩

instance : IsAntisymm (String × String) pairLe where
  antisymm a b hab hba := by
    rcases hab with h1 | ⟨e1, l1⟩
    · rcases hba with h2 | ⟨e2, _⟩
      · exact absurd (h1.trans h2) (lt_irrefl _)
      · exact absurd h1 (e2 ▸ lt_irrefl _)
    · rcases hba with h2 | ⟨e2, l2⟩
      · exact absurd h2 (e1 ▸ lt_irrefl _)
      · exact Prod.ext e1 (le_antisymm l1 l2)

/-- `impl From<&HashMap<String, String>> for Hash` (src/hash.rs lines
149-159): collect the entries, sort them, digest each as the merkle
combine of the key digest and the value digest, and merkle-combine the
results.  The map is modelled as its entry list in iteration order. -/
def hashEnvMap (l : List (String × String)) : HashV :=
  merkleCombine ((List.insertionSort pairLe l).map
    (fun kv => merkleCombine [HashV.leaf kv.1, HashV.leaf kv.2]))

/-- Modelled from the spec: the `Hash` instance for `HashSet<String>` used
by `ScopeBuilder::hash` (`Hash::from(&self.watch_scope)`) is not under
src/ (only its caller is); spec section 4.1 defines the digest of a set as
the merkle combine after canonical ordering of the members (here: sorted
by value).  The set is modelled as its element list in iteration order. -/
def hashSet (l : List String) : HashV :=
  merkleCombine ((List.insertionSort (fun a b : String => a ≤ b) l).map HashV.leaf)

/-- `ScopeBuilder` (src/command.rs lines 51-62).  `watch_scope` is the
`HashSet`'s elements and `watch_env` the `HashMap`'s entries, each listed
in iteration order; `watch_paths` keeps the path strings. -/
structure ScopeBuilder where
  format : String
  cmd : String
  args : List String
  shared : Bool
  user : Option String
  pwd : Option String
  watch_paths : List String
  watch_scope : List String
  watch_env : List (String × String)
deriving DecidableEq, Repr

/-- The per-field digests computed by `ScopeBuilder::hash` (src/command.rs
lines 113-133), in source order.  `fs` models `Hash::try_from(&PathBuf)`
(the merkle tree of the filesystem under the path); `none` models a path
hashing failure, which `hash()` propagates. -/
def ScopeBuilder.fieldHashes (fs : String → Option HashV) (b : ScopeBuilder) :
    Option (List HashV) :=
  (b.watch_paths.mapM fs).map (fun pathHashes =>
    [hashString b.format, hashString b.cmd, hashStrings b.args,
     hashBool b.shared, hashOptString b.user, hashOptString b.pwd,
     hashSet b.watch_scope, hashEnvMap b.watch_env, merkleCombine pathHashes])

/-- `ScopeBuilder::hash` (src/command.rs lines 113-135): the merkle
combine of the nine field digests, in source order. -/
def ScopeBuilder.hash (fs : String → Option HashV) (b : ScopeBuilder) :
    Option HashV :=
  (b.fieldHashes fs).map merkleCombine

/-- Sorting with respect to a total, transitive, antisymmetric relation
maps permuted lists to the same list. -/
theorem insertionSort_eq_of_perm {α : Type} (r : α → α → Prop) [DecidableRel r]
    [IsTotal α r] [IsTrans α r] [IsAntisymm α r] {l₁ l₂ : List α}
    (h : l₁.Perm l₂) : List.insertionSort r l₁ = List.insertionSort r l₂ :=
  List.eq_of_perm_of_sorted
    ((List.perm_insertionSort r l₁).trans (h.trans (List.perm_insertionSort r l₂).symm))
    (List.sorted_insertionSort r l₁) (List.sorted_insertionSort r l₂)

/-- `merkleCombine` on a two-element list is one pairwise combine. -/
theorem merkleCombine_pair (a b : HashV) : merkleCombine [a, b] = HashV.node a b := rfl

/-- Closed form of the merkle combine of the nine field digests of
`ScopeBuilder::hash`: four pairwise passes of the reduction. -/
theorem merkleCombine_nine (a b c d e f g h i : HashV) :
    merkleCombine [a, b, c, d, e, f, g, h, i] =
      HashV.node
        (HashV.node (HashV.node (HashV.node a b) (HashV.node c d))
          (HashV.node (HashV.node e f) (HashV.node g h))) i := rfl

/-- C1: Hash determinism and collection-order invariance: two scope
builders with equal `format`, `cmd`, `args`, `shared`, `user`, `pwd` and
`watch_paths` fields, whose `watch_scope` element lists are permutations
of each other (equal as sets) and whose `watch_env` entry lists are
permutations of each other (equal as mappings), receive the same digest
from `ScopeBuilder::hash` — in particular the digest does not depend on
the insertion order of the `watch_scope` tags or `watch_env` entries. -/
theorem scope_hash_deterministic_and_set_invariant
    (fs : String → Option HashV) (b₁ b₂ : ScopeBuilder)
    (hformat : b₁.format = b₂.format) (hcmd : b₁.cmd = b₂.cmd)
    (hargs : b₁.args = b₂.args) (hshared : b₁.shared = b₂.shared)
    (huser : b₁.user = b₂.user) (hpwd : b₁.pwd = b₂.pwd)
    (hpaths : b₁.watch_paths = b₂.watch_paths)
    (hscope : b₁.watch_scope.Perm b₂.watch_scope)
    (henv : b₁.watch_env.Perm b₂.watch_env) :
    ScopeBuilder.hash fs b₁ = ScopeBuilder.hash fs b₂ := by
  have hs : hashSet b₁.watch_scope = hashSet b₂.watch_scope := by
    unfold hashSet
    rw [insertionSort_eq_of_perm _ hscope]
  have he : hashEnvMap b₁.watch_env = hashEnvMap b₂.watch_env := by
    unfold hashEnvMap
    rw [insertionSort_eq_of_perm _ henv]
  unfold ScopeBuilder.hash ScopeBuilder.fieldHashes
  rw [hformat, hcmd, hargs, hshared, huser, hpwd, hpaths, hs, he]

/-- A filesystem in which every path hashes to the digest of the empty
byte string; used to instantiate theorems at concrete inputs. -/
def fsUnit : String → Option HashV := fun _ => some (HashV.leaf "")

/-- A concrete scope builder whose `watch_scope` and `watch_env` were
populated in reverse order. -/
def cbScopeA : ScopeBuilder :=
  { format := "1.0", cmd := "echo", args := ["hi"], shared := false,
    user := some "alice", pwd := some "/home", watch_paths := ["/w"],
    watch_scope := ["b", "a"], watch_env := [("B", "2"), ("A", "1")] }

/-- The same builder with `watch_scope` and `watch_env` in sorted order. -/
def cbScopeB : ScopeBuilder :=
  { cbScopeA with watch_scope := ["a", "b"], watch_env := [("A", "1"), ("B", "2")] }

/-- Witness for C1 at a concrete input: reversing the insertion order of
two tags and two environment entries leaves the digest unchanged. -/
theorem scope_hash_deterministic_and_set_invariant_witness :
    ScopeBuilder.hash fsUnit cbScopeA = ScopeBuilder.hash fsUnit cbScopeB :=
  scope_hash_deterministic_and_set_invariant fsUnit cbScopeA cbScopeB
    rfl rfl rfl rfl rfl rfl rfl (by decide) (by decide)

/-- A builder with no user. -/
def cbUserNone : ScopeBuilder :=
  { format := "1.0", cmd := "echo", args := [], shared := false,
    user := none, pwd := none, watch_paths := [], watch_scope := [],
    watch_env := [] }

/-- The same builder with `user = Some("")`. -/
def cbUserEmpty : ScopeBuilder := { cbUserNone with user := some "" }

/-- C2 counterexample: the claim asserts that builders unequal only in the
`user` field — `user=None` versus `user=Some(s)` — receive different
digests, for any present `s`.  The code (src/hash.rs lines 47-55) hashes
`None` as the empty byte string, exactly as it hashes `Some("")`: these
two builders are unequal only in `user`, yet their digests coincide. -/
theorem scope_hash_user_empty_collision :
    cbUserNone.user = none ∧ cbUserEmpty.user = some "" ∧
    cbUserNone ≠ cbUserEmpty ∧
    cbUserNone.format = cbUserEmpty.format ∧ cbUserNone.cmd = cbUserEmpty.cmd ∧
    cbUserNone.args = cbUserEmpty.args ∧ cbUserNone.shared = cbUserEmpty.shared ∧
    cbUserNone.pwd = cbUserEmpty.pwd ∧
    cbUserNone.watch_paths = cbUserEmpty.watch_paths ∧
    cbUserNone.watch_scope = cbUserEmpty.watch_scope ∧
    cbUserNone.watch_env = cbUserEmpty.watch_env ∧
    ScopeBuilder.hash fsUnit cbUserNone = ScopeBuilder.hash fsUnit cbUserEmpty := by
  decide

/-- C2 (amended): hash sensitivity.  Builders whose nine field digests
differ in any position receive different digests (different hash trees,
so different hex digests except with cryptographic collision
probability); in particular reversing two distinct arguments, flipping
`shared`, and `user=None` versus `user=Some(s)` with `s` nonempty all
change the digest.  (Amendment forced by the counterexample: the code
hashes `None` and `Some("")` identically, so the nonemptiness proviso on
`s` is required.) -/
theorem scope_hash_sensitivity :
    (∀ (fs : String → Option HashV) (b₁ b₂ : ScopeBuilder) (l₁ l₂ : List HashV),
      b₁.fieldHashes fs = some l₁ → b₂.fieldHashes fs = some l₂ → l₁ ≠ l₂ →
      b₁.hash fs ≠ b₂.hash fs) ∧
    (∀ (fs : String → Option HashV) (b : ScopeBuilder) (ph : List HashV)
      (a c : String), b.watch_paths.mapM fs = some ph → a ≠ c →
      ScopeBuilder.hash fs { b with args := [a, c] } ≠
        ScopeBuilder.hash fs { b with args := [c, a] }) ∧
    (∀ (fs : String → Option HashV) (b : ScopeBuilder) (ph : List HashV),
      b.watch_paths.mapM fs = some ph →
      ScopeBuilder.hash fs { b with shared := true } ≠
        ScopeBuilder.hash fs { b with shared := false }) ∧
    (∀ (fs : String → Option HashV) (b : ScopeBuilder) (ph : List HashV)
      (s : String), b.watch_paths.mapM fs = some ph → s ≠ "" →
      ScopeBuilder.hash fs { b with user := none } ≠
        ScopeBuilder.hash fs { b with user := some s }) := by
  have main : ∀ (fs : String → Option HashV) (b₁ b₂ : ScopeBuilder)
      (l₁ l₂ : List HashV),
      b₁.fieldHashes fs = some l₁ → b₂.fieldHashes fs = some l₂ → l₁ ≠ l₂ →
      b₁.hash fs ≠ b₂.hash fs := by
    intro fs b₁ b₂ l₁ l₂ h₁ h₂ hne heq
    unfold ScopeBuilder.hash at heq
    rw [h₁, h₂] at heq
    simp only [Option.map_some', Option.some.injEq] at heq
    rcases Option.map_eq_some'.mp h₁ with ⟨ph₁, _, hl₁⟩
    rcases Option.map_eq_some'.mp h₂ with ⟨ph₂, _, hl₂⟩
    subst hl₁; subst hl₂
    rw [merkleCombine_nine, merkleCombine_nine] at heq
    simp only [HashV.node.injEq] at heq
    obtain ⟨⟨⟨⟨e1, e2⟩, e3, e4⟩, ⟨e5, e6⟩, e7, e8⟩, e9⟩ := heq
    exact hne (by rw [e1, e2, e3, e4, e5, e6, e7, e8, e9])
  refine ⟨main, ?_, ?_, ?_⟩
  · intro fs b ph a c hph hac
    have h₁ : ScopeBuilder.fieldHashes fs { b with args := [a, c] } =
        some [hashString b.format, hashString b.cmd, hashStrings [a, c],
          hashBool b.shared, hashOptString b.user, hashOptString b.pwd,
          hashSet b.watch_scope, hashEnvMap b.watch_env, merkleCombine ph] := by
      unfold ScopeBuilder.fieldHashes
      rw [show ({ b with args := [a, c] } : ScopeBuilder).watch_paths
            = b.watch_paths from rfl, hph]
      rfl
    have h₂ : ScopeBuilder.fieldHashes fs { b with args := [c, a] } =
        some [hashString b.format, hashString b.cmd, hashStrings [c, a],
          hashBool b.shared, hashOptString b.user, hashOptString b.pwd,
          hashSet b.watch_scope, hashEnvMap b.watch_env, merkleCombine ph] := by
      unfold ScopeBuilder.fieldHashes
      rw [show ({ b with args := [c, a] } : ScopeBuilder).watch_paths
            = b.watch_paths from rfl, hph]
      rfl
    refine main fs _ _ _ _ h₁ h₂ ?_
    intro h
    simp only [List.cons.injEq, and_true, true_and, and_self] at h
    have harg : hashStrings [a, c] = hashStrings [c, a] := h
    rw [show hashStrings [a, c]
          = HashV.node (HashV.leaf a) (HashV.leaf c) from rfl,
        show hashStrings [c, a]
          = HashV.node (HashV.leaf c) (HashV.leaf a) from rfl] at harg
    simp only [HashV.node.injEq, HashV.leaf.injEq] at harg
    exact hac harg.1
  · intro fs b ph hph
    have h₁ : ScopeBuilder.fieldHashes fs { b with shared := true } =
        some [hashString b.format, hashString b.cmd, hashStrings b.args,
          hashBool true, hashOptString b.user, hashOptString b.pwd,
          hashSet b.watch_scope, hashEnvMap b.watch_env, merkleCombine ph] := by
      unfold ScopeBuilder.fieldHashes
      rw [show ({ b with shared := true } : ScopeBuilder).watch_paths
            = b.watch_paths from rfl, hph]
      rfl
    have h₂ : ScopeBuilder.fieldHashes fs { b with shared := false } =
        some [hashString b.format, hashString b.cmd, hashStrings b.args,
          hashBool false, hashOptString b.user, hashOptString b.pwd,
          hashSet b.watch_scope, hashEnvMap b.watch_env, merkleCombine ph] := by
      unfold ScopeBuilder.fieldHashes
      rw [show ({ b with shared := false } : ScopeBuilder).watch_paths
            = b.watch_paths from rfl, hph]
      rfl
    refine main fs _ _ _ _ h₁ h₂ ?_
    intro h
    simp only [List.cons.injEq, and_true, true_and, and_self] at h
    have hsh : hashBool true = hashBool false := h
    exact absurd hsh (by decide)
  · intro fs b ph s hph hs
    have h₁ : ScopeBuilder.fieldHashes fs { b with user := none } =
        some [hashString b.format, hashString b.cmd, hashStrings b.args,
          hashBool b.shared, hashOptString none, hashOptString b.pwd,
          hashSet b.watch_scope, hashEnvMap b.watch_env, merkleCombine ph] := by
      unfold ScopeBuilder.fieldHashes
      rw [show ({ b with user := none } : ScopeBuilder).watch_paths
            = b.watch_paths from rfl, hph]
      rfl
    have h₂ : ScopeBuilder.fieldHashes fs { b with user := some s } =
        some [hashString b.format, hashString b.cmd, hashStrings b.args,
          hashBool b.shared, hashOptString (some s), hashOptString b.pwd,
          hashSet b.watch_scope, hashEnvMap b.watch_env, merkleCombine ph] := by
      unfold ScopeBuilder.fieldHashes
      rw [show ({ b with user := some s } : ScopeBuilder).watch_paths
            = b.watch_paths from rfl, hph]
      rfl
    refine main fs _ _ _ _ h₁ h₂ ?_
    intro h
    simp only [List.cons.injEq, and_true, true_and, and_self] at h
    have hu : hashOptString none = hashOptString (some s) := h
    rw [show hashOptString none = HashV.leaf "" from rfl,
        show hashOptString (some s) = HashV.leaf s from rfl] at hu
    simp only [HashV.leaf.injEq] at hu
    exact hs hu.symm

/-- Witness for C2 (amended) at concrete inputs: reversed distinct
arguments, a flipped shared flag, and `None` versus a nonempty user each
change the digest. -/
theorem scope_hash_sensitivity_witness :
    ScopeBuilder.hash fsUnit { cbUserNone with args := ["x", "y"] } ≠
      ScopeBuilder.hash fsUnit { cbUserNone with args := ["y", "x"] } ∧
    ScopeBuilder.hash fsUnit { cbUserNone with shared := true } ≠
      ScopeBuilder.hash fsUnit { cbUserNone with shared := false } ∧
    ScopeBuilder.hash fsUnit { cbUserNone with user := none } ≠
      ScopeBuilder.hash fsUnit { cbUserNone with user := some "u" } :=
  ⟨scope_hash_sensitivity.2.1 fsUnit cbUserNone [] "x" "y" rfl (by decide),
   scope_hash_sensitivity.2.2.1 fsUnit cbUserNone [] rfl,
   scope_hash_sensitivity.2.2.2 fsUnit cbUserNone [] "u" rfl (by decide)⟩

/-! ## Freshness policy (src/cache.rs `CacheEntry`, src/deja.rs) -/

/-- A persisted cache entry as seen by the freshness policy
(`DiskCacheEntryMeta`, src/cache.rs lines 145-151): creation instant,
optional expiry instant (nanoseconds of wall clock) and exit status. -/
structure CacheEntryM where
  created : Nat
  expires : Option Nat
  status : Nat
deriving DecidableEq, Repr

/-- `CacheEntry::is_fresh` (src/cache.rs lines 289-292):
`expires_at().map_or(true, |expires| SystemTime::now() < expires)`. -/
def is_fresh (now : Nat) (e : CacheEntryM) : Bool :=
  match e.expires with
  | none => true
  | some expires => decide (now < expires)

/-- `SystemTime::elapsed()` at instant `now` for a time `created`:
`Ok(now - created)` when `created ≤ now`, `Err` (modelled `none`)
otherwise. -/
def elapsedTime (now created : Nat) : Option Nat :=
  if created ≤ now then some (now - created) else none

/-- `CacheEntry::is_younger_than` (src/cache.rs lines 294-296):
`self.created_at().elapsed().unwrap() < duration`; `none` models the
panic of the `unwrap` when `created` lies in the future of `now`. -/
def is_younger_than (now : Nat) (e : CacheEntryM) (duration : Nat) : Option Bool :=
  (elapsedTime now e.created).map (fun elapsed => decide (elapsed < duration))

/-- `CacheResultType` (src/deja.rs lines 185-190). -/
inductive CacheResultType where
  | Fresh (e : CacheEntryM)
  | TooOld (created : Nat)
  | Expired (expires : Nat)
  | Missing
deriving DecidableEq, Repr

/-- `find_any_result_from_cache` (src/deja.rs lines 47-71), with the
result of `cache.read` passed in as `read`.  The outer `none` models a
panic: either the `expires_at().unwrap()` in the Expired branch or the
`unwrap` inside `is_younger_than`. -/
def find_any_result_from_cache (now : Nat) (read : Option CacheEntryM)
    (look_back : Option Nat) : Option CacheResultType :=
  match read with
  | none => some CacheResultType.Missing
  | some result =>
    if !is_fresh now result then
      result.expires.map (fun expires => CacheResultType.Expired expires)
    else
      match look_back with
      | none => some (CacheResultType.Fresh result)
      | some duration =>
        (is_younger_than now result duration).map
          (fun younger => if younger then CacheResultType.Fresh result
            else CacheResultType.TooOld result.created)

/-- `Cache::find` (src/cache.rs lines 68-76), with the result of
`self.read` passed in as `stored`:
`read.filter(is_fresh).filter(|r| max_age.is_none_or(|d| r.is_younger_than(d)))`.
The outer `none` models the panic inside `is_younger_than`. -/
def findCache (now : Nat) (stored : Option CacheEntryM) (max_age : Option Nat) :
    Option (Option CacheEntryM) :=
  match stored with
  | none => some none
  | some e =>
    if is_fresh now e then
      match max_age with
      | none => some (some e)
      | some duration =>
        (is_younger_than now e duration).map
          (fun younger => if younger then some e else none)
    else some none

/-- The freshness classification as the amended claim states it, written
from the spec's words with the boundary inequalities corrected to match
the code: Expired when the expiry is present and `expires ≤ now`, Stale
(`TooOld`) when `max_age` is present and `created + max_age ≤ now`,
otherwise Fresh; Missing when no entry exists. -/
def classifySpec (now : Nat) (stored : Option CacheEntryM)
    (max_age : Option Nat) : CacheResultType :=
  match stored with
  | none => CacheResultType.Missing
  | some e =>
    match e.expires with
    | some expires =>
      if expires ≤ now then CacheResultType.Expired expires
      else
        match max_age with
        | some d =>
          if e.created + d ≤ now then CacheResultType.TooOld e.created
          else CacheResultType.Fresh e
        | none => CacheResultType.Fresh e
    | none =>
      match max_age with
      | some d =>
        if e.created + d ≤ now then CacheResultType.TooOld e.created
        else CacheResultType.Fresh e
      | none => CacheResultType.Fresh e

/-- C3 (amended): freshness classification.  For an entry whose creation
time does not lie in the future, the lookup classifies exactly as the
corrected state machine does — `Expired(expires)` when the expiry is
present and `expires ≤ now` (the code tests `now < expires`, so an entry
expiring exactly now is already Expired), else `Stale(created)` when
`max_age` is present and `created + max_age ≤ now`, else `Fresh`;
`Missing` when no entry exists — and `find` returns `Some(entry)` exactly
when the classification is Fresh. -/
theorem freshness_classification (now : Nat) (stored : Option CacheEntryM)
    (look_back : Option Nat) (h : ∀ e ∈ stored, e.created ≤ now) :
    find_any_result_from_cache now stored look_back =
      some (classifySpec now stored look_back) ∧
    (∀ e : CacheEntryM,
      (findCache now stored look_back = some (some e) ↔
        classifySpec now stored look_back = CacheResultType.Fresh e)) := by
  match stored with
  | none => simp [find_any_result_from_cache, findCache, classifySpec]
  | some e =>
    have hce : e.created ≤ now := h e rfl
    match he : e.expires with
    | some expires =>
      by_cases hexp : now < expires
      · have hf : is_fresh now e = true := by simp [is_fresh, he, hexp]
        match look_back with
        | none =>
          constructor
          · simp [find_any_result_from_cache, findCache, classifySpec, hf, he,
              Nat.not_le.mpr hexp]
          · intro e'
            simp [find_any_result_from_cache, findCache, classifySpec, hf, he,
              Nat.not_le.mpr hexp]
        | some d =>
          have hyt : is_younger_than now e d = some (decide (now - e.created < d)) := by
            simp [is_younger_than, elapsedTime, hce]
          by_cases hyoung : now - e.created < d
          · have hns : ¬ e.created + d ≤ now := by omega
            constructor
            · simp [find_any_result_from_cache, findCache, classifySpec, hf, he,
                Nat.not_le.mpr hexp, hyt, hyoung, hns]
            · intro e'
              simp [find_any_result_from_cache, findCache, classifySpec, hf, he,
                Nat.not_le.mpr hexp, hyt, hyoung, hns]
          · have hs : e.created + d ≤ now := by omega
            constructor
            · simp [find_any_result_from_cache, findCache, classifySpec, hf, he,
                Nat.not_le.mpr hexp, hyt, hyoung, hs]
            · intro e'
              simp [find_any_result_from_cache, findCache, classifySpec, hf, he,
                Nat.not_le.mpr hexp, hyt, hyoung, hs]
      · have hf : is_fresh now e = false := by simp [is_fresh, he, hexp]
        have hle : expires ≤ now := Nat.not_lt.mp hexp
        constructor
        · simp [find_any_result_from_cache, findCache, classifySpec, hf, he, hle]
        · intro e'
          simp [find_any_result_from_cache, findCache, classifySpec, hf, he, hle]
    | none =>
      have hf : is_fresh now e = true := by simp [is_fresh, he]
      match look_back with
      | none =>
        constructor
        · simp [find_any_result_from_cache, findCache, classifySpec, hf, he]
        · intro e'
          simp [find_any_result_from_cache, findCache, classifySpec, hf, he]
      | some d =>
        have hyt : is_younger_than now e d = some (decide (now - e.created < d)) := by
          simp [is_younger_than, elapsedTime, hce]
        by_cases hyoung : now - e.created < d
        · have hns : ¬ e.created + d ≤ now := by omega
          constructor
          · simp [find_any_result_from_cache, findCache, classifySpec, hf, he,
              hyt, hyoung, hns]
          · intro e'
            simp [find_any_result_from_cache, findCache, classifySpec, hf, he,
              hyt, hyoung, hns]
        · have hs : e.created + d ≤ now := by omega
          constructor
          · simp [find_any_result_from_cache, findCache, classifySpec, hf, he,
              hyt, hyoung, hs]
          · intro e'
            simp [find_any_result_from_cache, findCache, classifySpec, hf, he,
              hyt, hyoung, hs]

/-- Witness for C3 (amended) at a concrete input: an unexpired entry one
second old is classified Fresh and returned by `find`. -/
theorem freshness_classification_witness :
    find_any_result_from_cache 1 (some ⟨0, some 5, 0⟩) (some 3) =
      some (classifySpec 1 (some ⟨0, some 5, 0⟩) (some 3)) ∧
    (findCache 1 (some ⟨0, some 5, 0⟩) (some 3) = some (some ⟨0, some 5, 0⟩) ↔
      classifySpec 1 (some ⟨0, some 5, 0⟩) (some 3) =
        CacheResultType.Fresh ⟨0, some 5, 0⟩) :=
  ⟨(freshness_classification 1 (some ⟨0, some 5, 0⟩) (some 3)
      (by intro e he; simp only [Option.mem_def, Option.some.injEq] at he
          subst he; decide)).1,
   (freshness_classification 1 (some ⟨0, some 5, 0⟩) (some 3)
      (by intro e he; simp only [Option.mem_def, Option.some.injEq] at he
          subst he; decide)).2 ⟨0, some 5, 0⟩⟩

/-- C3 counterexample: the claim requires `Expired` exactly when
`expires < now`; at the boundary `expires = now = 100` the code already
classifies the entry as Expired (it tests `now < expires`), so the
claim's "exactly when `E.expires < now`" is false on the code.  The Stale
boundary fails the same way: with `created + max_age = now` the code
classifies Stale while the claim requires Fresh. -/
theorem freshness_boundary_counterexample :
    find_any_result_from_cache 100 (some ⟨0, some 100, 0⟩) none =
      some (CacheResultType.Expired 100) ∧ ¬(100 < 100) ∧
    find_any_result_from_cache 50 (some ⟨0, none, 0⟩) (some 50) =
      some (CacheResultType.TooOld 0) ∧ ¬(0 + 50 < 50) := by
  decide

/-- C9: if `is_fresh` returns false then the entry's expiry is present,
so the `expires_at().unwrap()` in the Expired branch of
`find_any_result_from_cache` is never reached with `None` and cannot
panic: the branch returns `Expired(expires)` for the actual expiry. -/
theorem is_fresh_false_expires_isSome (now : Nat) (e : CacheEntryM)
    (look_back : Option Nat) (h : is_fresh now e = false) :
    e.expires.isSome ∧
    ∃ expires, e.expires = some expires ∧
      find_any_result_from_cache now (some e) look_back =
        some (CacheResultType.Expired expires) := by
  match he : e.expires with
  | none => simp [is_fresh, he] at h
  | some expires =>
    refine ⟨by simp [he], expires, rfl, ?_⟩
    simp [find_any_result_from_cache, h, he]

/-- Witness for C9 at a concrete input: an entry that expired at 3 is not
fresh at 5 and the branch yields `Expired 3`. -/
theorem is_fresh_false_expires_isSome_witness :
    (⟨0, some 3, 0⟩ : CacheEntryM).expires.isSome ∧
    ∃ expires, (⟨0, some 3, 0⟩ : CacheEntryM).expires = some expires ∧
      find_any_result_from_cache 5 (some ⟨0, some 3, 0⟩) none =
        some (CacheResultType.Expired expires) :=
  is_fresh_false_expires_isSome 5 ⟨0, some 3, 0⟩ none (by decide)

/-- C10: under the precondition `created ≤ now`, `is_younger_than`
evaluates without error (the `elapsed().unwrap()` cannot fail): it
returns `elapsed < duration`.  Every lookup that carries a max-age /
look-back bound relies on this: both `Cache::find` and
`find_any_result_from_cache` evaluate without panic.  Conversely an entry
whose creation time lies in the future of the clock violates the
precondition and the `unwrap` panics (`none`). -/
theorem is_younger_than_no_panic (now : Nat) (e : CacheEntryM) (d : Nat)
    (h : e.created ≤ now) :
    is_younger_than now e d = some (decide (now - e.created < d)) ∧
    (is_younger_than now e d).isSome ∧
    (findCache now (some e) (some d)).isSome ∧
    (find_any_result_from_cache now (some e) (some d)).isSome ∧
    (∀ e' : CacheEntryM, ¬ e'.created ≤ now → is_younger_than now e' d = none) := by
  have hyt : is_younger_than now e d = some (decide (now - e.created < d)) := by
    simp [is_younger_than, elapsedTime, h]
  refine ⟨hyt, by simp [hyt], ?_, ?_, ?_⟩
  · cases hf : is_fresh now e <;> simp [findCache, hf, hyt]
  · cases hf : is_fresh now e
    · rcases (is_fresh_false_expires_isSome now e (some d) hf).2 with ⟨x, _, hx⟩
      simp [hx]
    · simp [find_any_result_from_cache, hf, hyt]
  · intro e' h'
    simp [is_younger_than, elapsedTime, h']

/-- Witness for C10 at a concrete input: an entry created at 2 checked at
5 with bound 10 evaluates to `some true`; one created at 7 panics. -/
theorem is_younger_than_no_panic_witness :
    is_younger_than 5 (⟨2, none, 0⟩ : CacheEntryM) 10 = some (decide (5 - 2 < 10)) ∧
    (is_younger_than 5 (⟨2, none, 0⟩ : CacheEntryM) 10).isSome ∧
    (findCache 5 (some ⟨2, none, 0⟩) (some 10)).isSome ∧
    (find_any_result_from_cache 5 (some ⟨2, none, 0⟩) (some 10)).isSome ∧
    (∀ e' : CacheEntryM, ¬ e'.created ≤ 5 → is_younger_than 5 e' 10 = none) :=
  is_younger_than_no_panic 5 ⟨2, none, 0⟩ 10 (by decide)

/-! ## Disk cache (src/cache.rs `DiskCache`) -/

/-- The metadata record persisted as `<hash>.ron` (`DiskCacheEntryMeta`
plus the stream paths of `DiskCacheEntry`, src/cache.rs lines 145-158).
The originating command is represented by its scope hash and ulid. -/
structure MetaData where
  cmdHash : String
  cmdUlid : String
  created : Nat
  expires : Option Nat
  status : Nat
  stdoutPath : String
  stderrPath : String
deriving DecidableEq, Repr

/-- Contents of one file in the cache directory: either a binary capture
stream or a serialized metadata record. -/
inductive FileData where
  | stream (bytes : List Nat)
  | meta (m : MetaData)
deriving DecidableEq, Repr

/-- The cache directory, as a path-to-content association list (most
recent write first). -/
def FS : Type := List (String × FileData)

instance : DecidableEq FS := by unfold FS; infer_instance

/-- Look a path up in the cache directory. -/
def fsRead : FS → String → Option FileData
  | [], _ => none
  | kv :: rest, p => if kv.1 = p then some kv.2 else fsRead rest p

/-- `std::fs::remove_file`. -/
def fsRemove : FS → String → FS
  | [], _ => []
  | kv :: rest, p => if kv.1 = p then fsRemove rest p else kv :: fsRemove rest p

/-- Replace (or create) the file at `p` with content `d`. -/
def fsWrite (fs : FS) (p : String) (d : FileData) : FS :=
  (p, d) :: fsRemove fs p

theorem fsRead_fsRemove (fs : FS) (p q : String) :
    fsRead (fsRemove fs p) q = if q = p then none else fsRead fs q := by
  induction fs with
  | nil => simp [fsRead, fsRemove, ite_self]
  | cons kv rest ih =>
    simp only [fsRead, fsRemove]
    by_cases hkp : kv.1 = p
    · rw [if_pos hkp, ih]
      by_cases hqp : q = p
      · simp [hqp]
      · have hkq : ¬ kv.1 = q := fun h => hqp (by rw [← h, hkp])
        simp [fsRead, hqp, hkq]
    · rw [if_neg hkp]
      simp only [fsRead]
      by_cases hkq : kv.1 = q
      · have hqp : ¬ q = p := fun h => hkp (hkq.trans h)
        simp [hkq, hqp]
      · simp [hkq, ih]

theorem fsRead_fsWrite (fs : FS) (p q : String) (d : FileData) :
    fsRead (fsWrite fs p d) q = if q = p then some d else fsRead fs q := by
  simp only [fsWrite, fsRead]
  by_cases hpq : p = q
  · simp [hpq]
  · have hqp : ¬ q = p := fun h => hpq h.symm
    simp [hpq, hqp, fsRead_fsRemove]

theorem fsRead_fsWrite_self (fs : FS) (p : String) (d : FileData) :
    fsRead (fsWrite fs p d) p = some d := by
  simp [fsRead_fsWrite]

/-- `DiskCache::path(hash, "ron")` (src/cache.rs lines 91-93, 111). -/
def ronPath (hash : String) : String := hash ++ ".ron"

/-- `DiskCache::path(hash, "{ulid}.out")` (src/cache.rs line 198). -/
def outPath (hash ulid : String) : String := hash ++ "." ++ ulid ++ ".out"

/-- `DiskCache::path(hash, "{ulid}.err")` (src/cache.rs line 199). -/
def errPath (hash ulid : String) : String := hash ++ "." ++ ulid ++ ".err"

/-- Outcome of the single child execution performed by `Command::run`:
its exit status and the bytes the two reader threads appended to the
capture sinks. -/
structure ChildOutcome where
  status : Nat
  outBytes : List Nat
  errBytes : List Nat
deriving DecidableEq, Repr

/-- `RecordOptions` (src/cache.rs lines 14-19): the `[bool; 256]` array
is modelled as its indexing function. -/
structure RecordOptions where
  cache_for : Option Nat
  exit_codes : Nat → Bool

/-- `RecordOptions::should_record` (src/cache.rs lines 30-32). -/
def RecordOptions.should_record (o : RecordOptions) (exit_code : Nat) : Bool :=
  o.exit_codes exit_code

/-- One filesystem mutation (or child spawn) performed by
`DiskCache::record`, in order of occurrence. -/
inductive FsEvent where
  | create (p : String)
  | spawn
  | writeStream (p : String) (bytes : List Nat)
  | removeFile (p : String)
  | writeMeta (p : String) (m : MetaData)
deriving DecidableEq, Repr

/-- Effect of one event on the cache directory.  `create` models
`DiskCache::create_file` (`OpenOptions::create(true)` without truncation:
an existing file is kept); `spawn` touches no file. -/
def applyEvent (fs : FS) : FsEvent → FS
  | FsEvent.create p =>
    match fsRead fs p with
    | some _ => fs
    | none => fsWrite fs p (FileData.stream [])
  | FsEvent.spawn => fs
  | FsEvent.writeStream p bytes => fsWrite fs p (FileData.stream bytes)
  | FsEvent.removeFile p => fsRemove fs p
  | FsEvent.writeMeta p m => fsWrite fs p (FileData.meta m)

def applyEvents (fs : FS) (evs : List FsEvent) : FS := evs.foldl applyEvent fs

theorem applyEvents_append (fs : FS) (evs₁ evs₂ : List FsEvent) :
    applyEvents fs (evs₁ ++ evs₂) = applyEvents (applyEvents fs evs₁) evs₂ := by
  simp [applyEvents, List.foldl_append]

/-- The events of `DiskCache::record` up to and including the child
execution (src/cache.rs lines 195-204): create the two capture sinks,
spawn the child once, and let the reader threads fill the sinks. -/
def preEvents (hash ulid : String) (child : ChildOutcome) : List FsEvent :=
  [FsEvent.create (outPath hash ulid), FsEvent.create (errPath hash ulid),
   FsEvent.spawn,
   FsEvent.writeStream (outPath hash ulid) child.outBytes,
   FsEvent.writeStream (errPath hash ulid) child.errBytes]

/-- The metadata `DiskCache::record` persists (src/cache.rs lines
206-218): `created` is the `SystemTime::now()` sampled at the start of
`record`, `expires` is `cache_for.map(|duration| now + duration)`. -/
def newMeta (hash ulid : String) (now : Nat) (opts : RecordOptions)
    (child : ChildOutcome) : MetaData :=
  { cmdHash := hash, cmdUlid := ulid, created := now,
    expires := opts.cache_for.map (fun duration => now + duration),
    status := child.status,
    stdoutPath := outPath hash ulid, stderrPath := errPath hash ulid }

/-- `DiskCache::record` (src/cache.rs lines 194-231) as its trace of
events: returns the child's status together with the event list, or
`none` when `self.read` fails to deserialize the existing `<hash>.ron`
file (modelled: the file holds a stream, not metadata); that error
propagates out of `record`.  `now` is the wall clock sampled at entry,
`ulid` the fresh unique suffix, `child` the outcome of the single
execution. -/
def recordEvents (fs : FS) (hash ulid : String) (now : Nat)
    (opts : RecordOptions) (child : ChildOutcome) : Option (Nat × List FsEvent) :=
  let pre := preEvents hash ulid child
  let run := applyEvents fs pre
  if opts.should_record child.status then
    match fsRead run (ronPath hash) with
    | some (FileData.meta existing) =>
      some (child.status, pre ++
        [FsEvent.removeFile existing.stdoutPath,
         FsEvent.removeFile existing.stderrPath,
         FsEvent.writeMeta (ronPath hash) (newMeta hash ulid now opts child)])
    | some (FileData.stream _) => none
    | none =>
      some (child.status, pre ++
        [FsEvent.writeMeta (ronPath hash) (newMeta hash ulid now opts child)])
  else
    some (child.status, pre ++
      [FsEvent.removeFile (outPath hash ulid), FsEvent.removeFile (errPath hash ulid)])

/-- `DiskCache::record`: status and resulting cache directory. -/
def record (fs : FS) (hash ulid : String) (now : Nat) (opts : RecordOptions)
    (child : ChildOutcome) : Option (Nat × FS) :=
  (recordEvents fs hash ulid now opts child).map
    (fun r => (r.1, applyEvents fs r.2))

theorem ronPath_ne_outPath (hash ulid : String) :
    ronPath hash ≠ outPath hash ulid := by
  intro heq
  have hl := congrArg String.length heq
  simp only [ronPath, outPath, String.length_append] at hl
  have h4 : (".ron" : String).length = 4 := rfl
  have h1 : ("." : String).length = 1 := rfl
  have ho : (".out" : String).length = 4 := rfl
  omega

theorem ronPath_ne_errPath (hash ulid : String) :
    ronPath hash ≠ errPath hash ulid := by
  intro heq
  have hl := congrArg String.length heq
  simp only [ronPath, errPath, String.length_append] at hl
  have h4 : (".ron" : String).length = 4 := rfl
  have h1 : ("." : String).length = 1 := rfl
  have he : (".err" : String).length = 4 := rfl
  omega

theorem outPath_ne_errPath (hash ulid : String) :
    outPath hash ulid ≠ errPath hash ulid := by
  intro heq
  have hd := congrArg String.data heq
  simp [outPath, errPath, List.append_assoc] at hd

/-- `DiskCache::remove` (src/cache.rs lines 233-242): delete the
`<hash>.ron` metadata file if it exists and report whether it existed. -/
def removeEntry (fs : FS) (hash : String) : Bool × FS :=
  if (fsRead fs (ronPath hash)).isSome then (true, fsRemove fs (ronPath hash))
  else (false, fs)

/-- Whether an `Option FileData` holds a capture stream (used to state
that the `<hash>.ron` file, if present, deserializes as metadata). -/
def isStreamFile : Option FileData → Bool
  | some (FileData.stream _) => true
  | _ => false

theorem fsRead_create_ne (fs : FS) (p q : String) (h : q ≠ p) :
    fsRead (applyEvent fs (FsEvent.create p)) q = fsRead fs q := by
  unfold applyEvent
  cases h' : fsRead fs p <;> simp [h', fsRead_fsWrite, h]

/-- Reading any path other than the two capture sinks is unaffected by
the creation-execution-capture phase of `record`. -/
theorem fsRead_preEvents_other (fs : FS) (hash ulid : String)
    (child : ChildOutcome) (q : String) (h₁ : q ≠ outPath hash ulid)
    (h₂ : q ≠ errPath hash ulid) :
    fsRead (applyEvents fs (preEvents hash ulid child)) q = fsRead fs q := by
  show fsRead (fsWrite (fsWrite (applyEvent (applyEvent fs
    (FsEvent.create (outPath hash ulid))) (FsEvent.create (errPath hash ulid)))
    (outPath hash ulid) (FileData.stream child.outBytes))
    (errPath hash ulid) (FileData.stream child.errBytes)) q = fsRead fs q
  rw [fsRead_fsWrite, if_neg h₂, fsRead_fsWrite, if_neg h₁,
    fsRead_create_ne _ _ _ h₂, fsRead_create_ne _ _ _ h₁]

/-- C4: record contract.  `record` spawns the child exactly once and
returns its exit status; it persists, under `<hash>.ron`, a metadata
record with `created = now` (the wall clock sampled at entry),
`expires = cache_for.map(|d| now + d)` and the child's status, if and
only if the options' exit-code set contains that status; when the set
does not contain it, the two transient capture-sink files are deleted
and the metadata is untouched.  The hypothesis states that the
pre-existing `<hash>.ron` file, if any, deserializes as metadata (else
`record` propagates a deserialization error instead of a status). -/
theorem record_contract (fs : FS) (hash ulid : String) (now : Nat)
    (opts : RecordOptions) (child : ChildOutcome)
    (hwf : isStreamFile
      (fsRead (applyEvents fs (preEvents hash ulid child)) (ronPath hash)) = false) :
    (recordEvents fs hash ulid now opts child).isSome ∧
    ∀ st evs, recordEvents fs hash ulid now opts child = some (st, evs) →
      st = child.status ∧
      record fs hash ulid now opts child = some (child.status, applyEvents fs evs) ∧
      evs.count FsEvent.spawn = 1 ∧
      (opts.should_record child.status = true →
        fsRead (applyEvents fs evs) (ronPath hash) = some (FileData.meta
          { cmdHash := hash, cmdUlid := ulid, created := now,
            expires := opts.cache_for.map (fun d => now + d),
            status := child.status,
            stdoutPath := outPath hash ulid, stderrPath := errPath hash ulid })) ∧
      (opts.should_record child.status = false →
        fsRead (applyEvents fs evs) (ronPath hash) = fsRead fs (ronPath hash) ∧
        fsRead (applyEvents fs evs) (outPath hash ulid) = none ∧
        fsRead (applyEvents fs evs) (errPath hash ulid) = none) := by
  by_cases hrec : opts.should_record child.status = true
  · match hread : fsRead (applyEvents fs (preEvents hash ulid child)) (ronPath hash) with
    | some (FileData.stream bytes) => rw [hread] at hwf; simp [isStreamFile] at hwf
    | some (FileData.meta existing) =>
      have hre : recordEvents fs hash ulid now opts child = some (child.status,
          preEvents hash ulid child ++
            [FsEvent.removeFile existing.stdoutPath,
             FsEvent.removeFile existing.stderrPath,
             FsEvent.writeMeta (ronPath hash) (newMeta hash ulid now opts child)]) := by
        unfold recordEvents
        rw [if_pos hrec]
        simp only [hread]
      refine ⟨by simp [hre], ?_⟩
      intro st evs heq
      rw [hre] at heq
      have hp := Option.some.inj heq
      have hst := (Prod.ext_iff.mp hp).1
      have hevs := (Prod.ext_iff.mp hp).2
      subst hst; subst hevs
      refine ⟨rfl, by simp [record, hre], rfl, ?_, ?_⟩
      · intro _
        rw [applyEvents_append]
        exact fsRead_fsWrite_self _ _ _
      · intro hcontra
        simp [hcontra] at hrec
    | none =>
      have hre : recordEvents fs hash ulid now opts child = some (child.status,
          preEvents hash ulid child ++
            [FsEvent.writeMeta (ronPath hash) (newMeta hash ulid now opts child)]) := by
        unfold recordEvents
        rw [if_pos hrec]
        simp only [hread]
      refine ⟨by simp [hre], ?_⟩
      intro st evs heq
      rw [hre] at heq
      have hp := Option.some.inj heq
      have hst := (Prod.ext_iff.mp hp).1
      have hevs := (Prod.ext_iff.mp hp).2
      subst hst; subst hevs
      refine ⟨rfl, by simp [record, hre], rfl, ?_, ?_⟩
      · intro _
        rw [applyEvents_append]
        exact fsRead_fsWrite_self _ _ _
      · intro hcontra
        simp [hcontra] at hrec
  · have hre : recordEvents fs hash ulid now opts child = some (child.status,
        preEvents hash ulid child ++
          [FsEvent.removeFile (outPath hash ulid),
           FsEvent.removeFile (errPath hash ulid)]) := by
      unfold recordEvents
      rw [if_neg hrec]
    refine ⟨by simp [hre], ?_⟩
    intro st evs heq
    rw [hre] at heq
    have hp := Option.some.inj heq
    have hst := (Prod.ext_iff.mp hp).1
    have hevs := (Prod.ext_iff.mp hp).2
    subst hst; subst hevs
    refine ⟨rfl, by simp [record, hre], rfl, fun hcontra => absurd hcontra hrec, ?_⟩
    intro _
    rw [applyEvents_append]
    refine ⟨?_, ?_, ?_⟩
    · show fsRead (fsRemove (fsRemove (applyEvents fs (preEvents hash ulid child))
        (outPath hash ulid)) (errPath hash ulid)) (ronPath hash) = _
      rw [fsRead_fsRemove, if_neg (ronPath_ne_errPath hash ulid),
        fsRead_fsRemove, if_neg (ronPath_ne_outPath hash ulid),
        fsRead_preEvents_other fs hash ulid child (ronPath hash)
          (ronPath_ne_outPath hash ulid) (ronPath_ne_errPath hash ulid)]
    · show fsRead (fsRemove (fsRemove (applyEvents fs (preEvents hash ulid child))
        (outPath hash ulid)) (errPath hash ulid)) (outPath hash ulid) = none
      rw [fsRead_fsRemove, if_neg (outPath_ne_errPath hash ulid),
        fsRead_fsRemove, if_pos rfl]
    · show fsRead (fsRemove (fsRemove (applyEvents fs (preEvents hash ulid child))
        (outPath hash ulid)) (errPath hash ulid)) (errPath hash ulid) = none
      rw [fsRead_fsRemove, if_pos rfl]

/-- A record-options value recording exit code 0 only, with no expiry. -/
def optsZero : RecordOptions := { cache_for := none, exit_codes := fun s => s == 0 }

/-- A concrete child outcome: success with one byte on each stream. -/
def childOk : ChildOutcome := { status := 0, outBytes := [3], errBytes := [4] }

/-- The event list `record` produces on an empty cache for `childOk`. -/
def evsOk : List FsEvent :=
  preEvents "h" "u" childOk ++
    [FsEvent.writeMeta (ronPath "h") (newMeta "h" "u" 3 optsZero childOk)]

/-- Witness for C4 at a concrete input: recording a successful child on
an empty cache persists the metadata entry. -/
theorem record_contract_witness :
    (0 : Nat) = childOk.status ∧
    record [] "h" "u" 3 optsZero childOk = some (childOk.status, applyEvents [] evsOk) ∧
    evsOk.count FsEvent.spawn = 1 ∧
    (optsZero.should_record childOk.status = true →
      fsRead (applyEvents [] evsOk) (ronPath "h") = some (FileData.meta
        { cmdHash := "h", cmdUlid := "u", created := 3,
          expires := optsZero.cache_for.map (fun d => 3 + d),
          status := childOk.status,
          stdoutPath := outPath "h" "u", stderrPath := errPath "h" "u" })) ∧
    (optsZero.should_record childOk.status = false →
      fsRead (applyEvents [] evsOk) (ronPath "h") = fsRead [] (ronPath "h") ∧
      fsRead (applyEvents [] evsOk) (outPath "h" "u") = none ∧
      fsRead (applyEvents [] evsOk) (errPath "h" "u") = none) :=
  (record_contract [] "h" "u" 3 optsZero childOk (by decide)).2 0 evsOk (by decide)

/-- C6 (amended): supersession ordering.  When `record` overwrites an
existing entry under the same hash, the superseded entry's stream files
are removed immediately BEFORE the new metadata is committed, not after:
the trace ends with the two removals followed by the metadata write
(src/cache.rs lines 220-225 perform the removals, line 225 the write).
After the final write the committed metadata is the new entry, whose
stream files carry the fresh ulid suffix; but between the removals and
the write the still-committed old metadata references the deleted
files. -/
theorem record_supersession_order (fs : FS) (hash ulid : String) (now : Nat)
    (opts : RecordOptions) (child : ChildOutcome) (existing : MetaData)
    (hrec : opts.should_record child.status = true)
    (hold : fsRead (applyEvents fs (preEvents hash ulid child)) (ronPath hash) =
      some (FileData.meta existing)) :
    recordEvents fs hash ulid now opts child = some (child.status,
      preEvents hash ulid child ++
        [FsEvent.removeFile existing.stdoutPath,
         FsEvent.removeFile existing.stderrPath,
         FsEvent.writeMeta (ronPath hash) (newMeta hash ulid now opts child)]) ∧
    fsRead (applyEvents fs (preEvents hash ulid child ++
        [FsEvent.removeFile existing.stdoutPath,
         FsEvent.removeFile existing.stderrPath,
         FsEvent.writeMeta (ronPath hash) (newMeta hash ulid now opts child)]))
      (ronPath hash) = some (FileData.meta (newMeta hash ulid now opts child)) := by
  constructor
  · unfold recordEvents
    rw [if_pos hrec]
    simp only [hold]
  · rw [applyEvents_append]
    exact fsRead_fsWrite_self _ _ _

/-- The metadata of an already-recorded entry with ulid suffix `OLD`. -/
def oldMetaC : MetaData :=
  { cmdHash := "h", cmdUlid := "OLD", created := 0, expires := none,
    status := 0, stdoutPath := "h.OLD.out", stderrPath := "h.OLD.err" }

/-- A cache directory holding that entry and its two stream files. -/
def fsC : FS :=
  [("h.ron", FileData.meta oldMetaC),
   ("h.OLD.out", FileData.stream [1]), ("h.OLD.err", FileData.stream [2])]

/-- Witness for C6 (amended) at a concrete input: overwriting the entry
of `fsC` removes the old streams and then commits the new metadata. -/
theorem record_supersession_order_witness :
    recordEvents fsC "h" "NEW" 7 optsZero childOk = some (childOk.status,
      preEvents "h" "NEW" childOk ++
        [FsEvent.removeFile oldMetaC.stdoutPath,
         FsEvent.removeFile oldMetaC.stderrPath,
         FsEvent.writeMeta (ronPath "h") (newMeta "h" "NEW" 7 optsZero childOk)]) ∧
    fsRead (applyEvents fsC (preEvents "h" "NEW" childOk ++
        [FsEvent.removeFile oldMetaC.stdoutPath,
         FsEvent.removeFile oldMetaC.stderrPath,
         FsEvent.writeMeta (ronPath "h") (newMeta "h" "NEW" 7 optsZero childOk)]))
      (ronPath "h") = some (FileData.meta (newMeta "h" "NEW" 7 optsZero childOk)) :=
  record_supersession_order fsC "h" "NEW" 7 optsZero childOk oldMetaC
    (by decide) (by decide)

/-- C6 counterexample: the claim asserts the superseded entry's stream
files are removed only AFTER the new metadata has been committed, and
that at no point does a committed metadata record reference
already-deleted stream files.  On the cache `fsC`, after the first seven
of the eight events of `record`'s trace — that is, after both removals
and before the metadata write — the committed `h.ron` metadata is still
the old entry while both stream files it references are gone. -/
theorem record_supersession_counterexample :
    (recordEvents fsC "h" "NEW" 7 optsZero childOk).map
        (fun r => r.2.take 7) =
      some (preEvents "h" "NEW" childOk ++
        [FsEvent.removeFile "h.OLD.out", FsEvent.removeFile "h.OLD.err"]) ∧
    fsRead (applyEvents fsC (preEvents "h" "NEW" childOk ++
        [FsEvent.removeFile "h.OLD.out", FsEvent.removeFile "h.OLD.err"]))
      "h.ron" = some (FileData.meta oldMetaC) ∧
    oldMetaC.stdoutPath = "h.OLD.out" ∧ oldMetaC.stderrPath = "h.OLD.err" ∧
    fsRead (applyEvents fsC (preEvents "h" "NEW" childOk ++
        [FsEvent.removeFile "h.OLD.out", FsEvent.removeFile "h.OLD.err"]))
      "h.OLD.out" = none ∧
    fsRead (applyEvents fsC (preEvents "h" "NEW" childOk ++
        [FsEvent.removeFile "h.OLD.out", FsEvent.removeFile "h.OLD.err"]))
      "h.OLD.err" = none := by
  decide

/-- C7 (amended): remove contract.  `remove(hash)` returns true exactly
when a metadata entry existed under the hash, and deletes it; but it
deletes ONLY the `<hash>.ron` metadata file — every other path,
including the entry's two stream files, is left untouched
(src/cache.rs lines 233-242 touch no stream file). -/
theorem remove_contract (fs : FS) (hash : String) :
    ((removeEntry fs hash).1 = true ↔ (fsRead fs (ronPath hash)).isSome) ∧
    fsRead (removeEntry fs hash).2 (ronPath hash) = none ∧
    (∀ p, p ≠ ronPath hash → fsRead (removeEntry fs hash).2 p = fsRead fs p) := by
  by_cases h : (fsRead fs (ronPath hash)).isSome
  · refine ⟨by simp [removeEntry, h], ?_, ?_⟩
    · simp [removeEntry, h, fsRead_fsRemove]
    · intro p hp
      simp [removeEntry, h, fsRead_fsRemove, hp]
  · have hnone : fsRead fs (ronPath hash) = none := by
      cases hv : fsRead fs (ronPath hash)
      · rfl
      · rw [hv] at h; simp at h
    refine ⟨by simp [removeEntry, h, hnone], by simp [removeEntry, h, hnone], ?_⟩
    intro p hp
    simp [removeEntry, h]

/-- Witness for C7 (amended) at a concrete input: removing the entry of
`fsC` deletes `h.ron` and leaves `h.OLD.out` untouched. -/
theorem remove_contract_witness :
    ((removeEntry fsC "h").1 = true ↔ (fsRead fsC (ronPath "h")).isSome) ∧
    fsRead (removeEntry fsC "h").2 (ronPath "h") = none ∧
    fsRead (removeEntry fsC "h").2 "h.OLD.out" = fsRead fsC "h.OLD.out" :=
  ⟨(remove_contract fsC "h").1, (remove_contract fsC "h").2.1,
   (remove_contract fsC "h").2.2 "h.OLD.out" (by decide)⟩

/-- C7 counterexample: the claim asserts that when an entry is removed
its two stream files are removed as well.  Removing the entry of `fsC`
returns true and deletes the metadata, yet both stream files referenced
by the removed metadata are still present afterwards. -/
theorem remove_leaves_stream_files :
    (removeEntry fsC "h").1 = true ∧
    fsRead fsC (ronPath "h") = some (FileData.meta oldMetaC) ∧
    oldMetaC.stdoutPath = "h.OLD.out" ∧ oldMetaC.stderrPath = "h.OLD.err" ∧
    fsRead (removeEntry fsC "h").2 "h.OLD.out" = some (FileData.stream [1]) ∧
    fsRead (removeEntry fsC "h").2 "h.OLD.err" = some (FileData.stream [2]) := by
  decide

/-! ## Replay (src/cache.rs `replay_output`, `CacheEntry::replay`) -/

/-- The destination a replayed record is emitted to: process stdout for
records of the stdout capture, process stderr for the stderr capture. -/
inductive Dest where
  | out
  | err
deriving DecidableEq, Repr

/-- Fuel-indexed body of `replay_output` (src/cache.rs lines 245-281):
peek both streams; with two records present emit the stdout one when
`ot < et`, otherwise the stderr one; with one stream exhausted drain the
other.  The fuel is the total number of records, so the `0` case is
unreachable. -/
def replayGo : Nat → List (Nat × String) → List (Nat × String) →
    List (Dest × Nat × String)
  | 0, _, _ => []
  | _ + 1, [], [] => []
  | f + 1, o :: os, [] => (Dest.out, o.1, o.2) :: replayGo f os []
  | f + 1, [], e :: es => (Dest.err, e.1, e.2) :: replayGo f [] es
  | f + 1, o :: os, e :: es =>
    if o.1 < e.1 then (Dest.out, o.1, o.2) :: replayGo f os (e :: es)
    else (Dest.err, e.1, e.2) :: replayGo f (o :: os) es

/-- `replay_output`, as the emitted sequence of (destination, timestamp,
line) triples. -/
def replayMerge (os es : List (Nat × String)) : List (Dest × Nat × String) :=
  replayGo (os.length + es.length) os es

/-- The subsequence of records a replay emitted to process stdout. -/
def outProj (l : List (Dest × Nat × String)) : List (Nat × String) :=
  l.filterMap (fun x =>
    match x with
    | (Dest.out, t, s) => some (t, s)
    | _ => none)

/-- The subsequence of records a replay emitted to process stderr. -/
def errProj (l : List (Dest × Nat × String)) : List (Nat × String) :=
  l.filterMap (fun x =>
    match x with
    | (Dest.err, t, s) => some (t, s)
    | _ => none)

/-- Order on emitted records: earlier timestamp first; on equal
timestamps a stdout record never precedes a stderr record. -/
def mergedLe (a b : Dest × Nat × String) : Prop :=
  a.2.1 < b.2.1 ∨ (a.2.1 = b.2.1 ∧ ¬(a.1 = Dest.out ∧ b.1 = Dest.err))

theorem mergedLe_of_err (a b : Dest × Nat × String) (h : a.2.1 ≤ b.2.1)
    (ha : a.1 = Dest.err) : mergedLe a b := by
  rcases lt_or_eq_of_le h with h' | h'
  · exact Or.inl h'
  · exact Or.inr ⟨h', fun hc => by rw [ha] at hc; exact Dest.noConfusion hc.1⟩

theorem mergedLe_of_out (a b : Dest × Nat × String) (h : a.2.1 ≤ b.2.1)
    (hb : b.1 = Dest.out) : mergedLe a b := by
  rcases lt_or_eq_of_le h with h' | h'
  · exact Or.inl h'
  · exact Or.inr ⟨h', fun hc => by rw [hb] at hc; exact Dest.noConfusion hc.2⟩

/-- Every emitted record is an input record of one of the two streams,
tagged with that stream's destination. -/
theorem replayGo_mem (f : Nat) (os es : List (Nat × String)) :
    ∀ x ∈ replayGo f os es,
      (∃ r ∈ os, x = (Dest.out, r.1, r.2)) ∨ (∃ r ∈ es, x = (Dest.err, r.1, r.2)) := by
  induction f generalizing os es with
  | zero => intro x hx; simp [replayGo] at hx
  | succ f ih =>
    match os, es with
    | [], [] => intro x hx; simp [replayGo] at hx
    | o :: os, [] =>
      intro x hx
      rw [replayGo] at hx
      rcases List.mem_cons.mp hx with hx | hx
      · exact Or.inl ⟨o, List.mem_cons_self .., hx⟩
      · rcases ih os [] x hx with ⟨r, hr, hxr⟩ | ⟨r, hr, _⟩
        · exact Or.inl ⟨r, List.mem_cons_of_mem _ hr, hxr⟩
        · simp at hr
    | [], e :: es =>
      intro x hx
      rw [replayGo] at hx
      rcases List.mem_cons.mp hx with hx | hx
      · exact Or.inr ⟨e, List.mem_cons_self .., hx⟩
      · rcases ih [] es x hx with ⟨r, hr, _⟩ | ⟨r, hr, hxr⟩
        · simp at hr
        · exact Or.inr ⟨r, List.mem_cons_of_mem _ hr, hxr⟩
    | o :: os, e :: es =>
      intro x hx
      rw [replayGo] at hx
      by_cases hlt : o.1 < e.1
      · rw [if_pos hlt] at hx
        rcases List.mem_cons.mp hx with hx | hx
        · exact Or.inl ⟨o, List.mem_cons_self .., hx⟩
        · rcases ih os (e :: es) x hx with ⟨r, hr, hxr⟩ | ⟨r, hr, hxr⟩
          · exact Or.inl ⟨r, List.mem_cons_of_mem _ hr, hxr⟩
          · exact Or.inr ⟨r, hr, hxr⟩
      · rw [if_neg hlt] at hx
        rcases List.mem_cons.mp hx with hx | hx
        · exact Or.inr ⟨e, List.mem_cons_self .., hx⟩
        · rcases ih (o :: os) es x hx with ⟨r, hr, hxr⟩ | ⟨r, hr, hxr⟩
          · exact Or.inl ⟨r, hr, hxr⟩
          · exact Or.inr ⟨r, List.mem_cons_of_mem _ hr, hxr⟩

/-- The merge loses no record and preserves each stream's order: the
stdout projection of the output is exactly the stdout input, likewise
for stderr. -/
theorem replayGo_proj (f : Nat) (os es : List (Nat × String))
    (hf : os.length + es.length ≤ f) :
    outProj (replayGo f os es) = os ∧ errProj (replayGo f os es) = es := by
  induction f generalizing os es with
  | zero =>
    have hos : os = [] := List.eq_nil_of_length_eq_zero (by omega)
    have hes : es = [] := List.eq_nil_of_length_eq_zero (by omega)
    subst hos; subst hes
    simp [replayGo, outProj, errProj]
  | succ f ih =>
    match os, es with
    | [], [] => simp [replayGo, outProj, errProj]
    | o :: os, [] =>
      have hlen : os.length + ([] : List (Nat × String)).length ≤ f := by
        simp at hf ⊢; omega
      have := ih os [] hlen
      rw [replayGo]
      refine ⟨?_, ?_⟩
      · simp only [outProj, List.filterMap_cons]
        rw [outProj] at this
        simp [this.1]
      · simp only [errProj, List.filterMap_cons]
        rw [errProj] at this
        simp [this.2]
    | [], e :: es =>
      have hlen : ([] : List (Nat × String)).length + es.length ≤ f := by
        simp at hf ⊢; omega
      have := ih [] es hlen
      rw [replayGo]
      refine ⟨?_, ?_⟩
      · simp only [outProj, List.filterMap_cons]
        rw [outProj] at this
        simp [this.1]
      · simp only [errProj, List.filterMap_cons]
        rw [errProj] at this
        simp [this.2]
    | o :: os, e :: es =>
      rw [replayGo]
      by_cases hlt : o.1 < e.1
      · have hlen : os.length + (e :: es).length ≤ f := by
          simp at hf ⊢; omega
        have := ih os (e :: es) hlen
        rw [if_pos hlt]
        refine ⟨?_, ?_⟩
        · simp only [outProj, List.filterMap_cons]
          rw [outProj] at this
          simp [this.1]
        · simp only [errProj, List.filterMap_cons]
          rw [errProj] at this
          simp [this.2]
      · have hlen : (o :: os).length + es.length ≤ f := by
          simp at hf ⊢; omega
        have := ih (o :: os) es hlen
        rw [if_neg hlt]
        refine ⟨?_, ?_⟩
        · simp only [outProj, List.filterMap_cons]
          rw [outProj] at this
          simp [this.1]
        · simp only [errProj, List.filterMap_cons]
          rw [errProj] at this
          simp [this.2]

/-- With each input stream sorted by timestamp, the emitted sequence is
sorted under `mergedLe`: non-decreasing timestamps, and on equal
timestamps stderr records come first. -/
theorem replayGo_pairwise (f : Nat) (os es : List (Nat × String))
    (hf : os.length + es.length ≤ f)
    (hos : os.Pairwise (fun a b => a.1 ≤ b.1))
    (hes : es.Pairwise (fun a b => a.1 ≤ b.1)) :
    (replayGo f os es).Pairwise mergedLe := by
  induction f generalizing os es with
  | zero => simp [replayGo]
  | succ f ih =>
    match os, es with
    | [], [] => simp [replayGo]
    | o :: os, [] =>
      rw [replayGo]
      refine List.Pairwise.cons ?_ (ih os [] (by simp at hf ⊢; omega)
        (List.Pairwise.sublist (List.sublist_cons_self ..) hos) List.Pairwise.nil)
      intro x hx
      rcases replayGo_mem f os [] x hx with ⟨r, hr, hxr⟩ | ⟨r, hr, _⟩
      · subst hxr
        exact mergedLe_of_out _ _ (List.rel_of_pairwise_cons hos hr) rfl
      · simp at hr
    | [], e :: es =>
      rw [replayGo]
      refine List.Pairwise.cons ?_ (ih [] es (by simp at hf ⊢; omega)
        List.Pairwise.nil (List.Pairwise.sublist (List.sublist_cons_self ..) hes))
      intro x hx
      rcases replayGo_mem f [] es x hx with ⟨r, hr, _⟩ | ⟨r, hr, hxr⟩
      · simp at hr
      · subst hxr
        exact mergedLe_of_err _ _ (List.rel_of_pairwise_cons hes hr) rfl
    | o :: os, e :: es =>
      rw [replayGo]
      by_cases hlt : o.1 < e.1
      · rw [if_pos hlt]
        refine List.Pairwise.cons ?_ (ih os (e :: es) (by simp at hf ⊢; omega)
          (List.Pairwise.sublist (List.sublist_cons_self ..) hos) hes)
        intro x hx
        rcases replayGo_mem f os (e :: es) x hx with ⟨r, hr, hxr⟩ | ⟨r, hr, hxr⟩
        · subst hxr
          exact mergedLe_of_out _ _ (List.rel_of_pairwise_cons hos hr) rfl
        · subst hxr
          rcases List.mem_cons.mp hr with hre | hre
          · subst hre
            exact Or.inl hlt
          · exact Or.inl (lt_of_lt_of_le hlt (List.rel_of_pairwise_cons hes hre))
      · rw [if_neg hlt]
        have hle : e.1 ≤ o.1 := Nat.le_of_not_lt hlt
        refine List.Pairwise.cons ?_ (ih (o :: os) es (by simp at hf ⊢; omega)
          hos (List.Pairwise.sublist (List.sublist_cons_self ..) hes))
        intro x hx
        rcases replayGo_mem f (o :: os) es x hx with ⟨r, hr, hxr⟩ | ⟨r, hr, hxr⟩
        · subst hxr
          rcases List.mem_cons.mp hr with hro | hro
          · subst hro
            exact mergedLe_of_err _ _ hle rfl
          · exact mergedLe_of_err _ _
              (le_trans hle (List.rel_of_pairwise_cons hos hro)) rfl
        · subst hxr
          exact mergedLe_of_err _ _ (List.rel_of_pairwise_cons hes hr) rfl

/-- A disk cache entry as seen by `CacheEntry::replay`: the two parsed
capture streams and the recorded exit status. -/
structure DiskEntryStreams where
  stdoutRecs : List (Nat × String)
  stderrRecs : List (Nat × String)
  status : Nat
deriving DecidableEq, Repr

/-- `CacheEntry::replay` (src/cache.rs lines 298-301): replay the output
(the merged emission sequence) and return the recorded exit status. -/
def replayEntry (e : DiskEntryStreams) : List (Dest × Nat × String) × Nat :=
  (replayMerge e.stdoutRecs e.stderrRecs, e.status)

/-- C5: replay merge order.  For capture streams sorted by timestamp
(as produced by the per-stream reader threads), the replay emits every
record of both streams — the stdout projection of the emission is
exactly the stdout stream and likewise for stderr — in non-decreasing
timestamp order; on equal timestamps the stderr record is emitted first
(the code emits stdout only when `ot < et` strictly); when both heads
carry the same timestamp the stderr head is emitted first; and `replay`
returns the entry's recorded exit status. -/
theorem replay_merge_contract (os es : List (Nat × String))
    (hos : os.Pairwise (fun a b => a.1 ≤ b.1))
    (hes : es.Pairwise (fun a b => a.1 ≤ b.1)) :
    outProj (replayMerge os es) = os ∧
    errProj (replayMerge os es) = es ∧
    (replayMerge os es).Pairwise mergedLe ∧
    (replayMerge os es).Pairwise (fun a b => a.2.1 ≤ b.2.1) ∧
    (∀ (t : Nat) (a b : String) (os' es' : List (Nat × String)),
      (replayMerge ((t, a) :: os') ((t, b) :: es')).head? =
        some (Dest.err, t, b)) ∧
    (∀ e : DiskEntryStreams, (replayEntry e).2 = e.status ∧
      (replayEntry e).1 = replayMerge e.stdoutRecs e.stderrRecs) := by
  have hproj := replayGo_proj (os.length + es.length) os es (le_refl _)
  have hpw := replayGo_pairwise (os.length + es.length) os es (le_refl _) hos hes
  refine ⟨hproj.1, hproj.2, hpw, ?_, ?_, fun e => ⟨rfl, rfl⟩⟩
  · exact hpw.imp (fun h => by
      rcases h with h | ⟨h, _⟩
      · exact le_of_lt h
      · exact le_of_eq h)
  · intro t a b os' es'
    simp [replayMerge, replayGo, List.head?]

/-- Witness for C5 at concrete sorted streams. -/
theorem replay_merge_contract_witness :
    outProj (replayMerge [(1, "o1"), (3, "o2")] [(2, "e1")]) =
      [(1, "o1"), (3, "o2")] ∧
    errProj (replayMerge [(1, "o1"), (3, "o2")] [(2, "e1")]) = [(2, "e1")] ∧
    (replayMerge [(1, "o1"), (3, "o2")] [(2, "e1")]).Pairwise mergedLe ∧
    (replayMerge [(1, "o1"), (3, "o2")] [(2, "e1")]).Pairwise
      (fun a b => a.2.1 ≤ b.2.1) ∧
    (∀ (t : Nat) (a b : String) (os' es' : List (Nat × String)),
      (replayMerge ((t, a) :: os') ((t, b) :: es')).head? =
        some (Dest.err, t, b)) ∧
    (∀ e : DiskEntryStreams, (replayEntry e).2 = e.status ∧
      (replayEntry e).1 = replayMerge e.stdoutRecs e.stderrRecs) :=
  replay_merge_contract [(1, "o1"), (3, "o2")] [(2, "e1")]
    (by decide) (by decide)

/-! ## Capture stream format (src/command.rs `capture_output`,
src/cache.rs `OutputReader`) -/

/-- Big-endian byte encoding on `n` bytes, as produced by
`u128::to_be_bytes` for `n = 16` (src/command.rs line 40). -/
def toBE : Nat → Nat → List Nat
  | 0, _ => []
  | n + 1, t => toBE n (t / 256) ++ [t % 256]

/-- `u128::from_be_bytes` (src/cache.rs line 332). -/
def fromBE (l : List Nat) : Nat := l.foldl (fun acc b => acc * 256 + b) 0

/-- `BufRead::read_line` viewed on bytes: consume up to and including the
first `\n` (byte 10), or everything when no `\n` remains. -/
def takeLine : List Nat → List Nat
  | [] => []
  | b :: bs => if b = 10 then [10] else b :: takeLine bs

/-- The bytes `capture_output` appends to a capture sink for one record
(src/command.rs lines 40-43): the 16-byte big-endian
nanoseconds-since-start timestamp, then the line bytes (trailing newline
included when present). -/
def serializeRecord (r : Nat × List Nat) : List Nat := toBE 16 r.1 ++ r.2

/-- The full byte content of a capture sink. -/
def serializeStream (recs : List (Nat × List Nat)) : List Nat :=
  (recs.map serializeRecord).flatten

/-- Fuel-indexed loop of the `OutputReader` iterator (src/cache.rs lines
311-336): `read_exact` 16 timestamp bytes (stop on EOF or a short read),
then `read_line` (stop on an empty line, i.e. immediate EOF); otherwise
yield the record and continue.  The fuel is the byte count, which bounds
the number of records. -/
def parseGo : Nat → List Nat → List (Nat × List Nat)
  | 0, _ => []
  | f + 1, bs =>
    if bs.length < 16 then []
    else
      if (takeLine (bs.drop 16)).isEmpty then []
      else (fromBE (bs.take 16), takeLine (bs.drop 16)) ::
        parseGo f ((bs.drop 16).drop (takeLine (bs.drop 16)).length)

/-- All records an `OutputReader` yields from a byte stream. -/
def readStream (bs : List Nat) : List (Nat × List Nat) := parseGo bs.length bs

/-- A line as the capture produces it for every record but possibly the
last: nonempty, ending in `\n`, with no interior `\n`. -/
def isCaptureLine (l : List Nat) : Bool :=
  !l.isEmpty && l.dropLast.all (fun b => b != 10) && (l.getLast? == some 10)

/-- A line the capture may produce for the final record: a terminated
line, or a nonempty line with no `\n` (EOF without trailing newline). -/
def isFinalCaptureLine (l : List Nat) : Bool :=
  isCaptureLine l || (!l.isEmpty && l.all (fun b => b != 10))

/-- Well-formedness of a captured record sequence: every timestamp fits
in a `u128`, every line but the last is a terminated line, and the last
is a terminated line or a newline-free nonempty line. -/
def wfStream : List (Nat × List Nat) → Bool
  | [] => true
  | [r] => decide (r.1 < 256 ^ 16) && isFinalCaptureLine r.2
  | r :: rest => decide (r.1 < 256 ^ 16) && isCaptureLine r.2 && wfStream rest

theorem toBE_length (n t : Nat) : (toBE n t).length = n := by
  induction n generalizing t with
  | zero => rfl
  | succ n ih => simp [toBE, ih]

theorem fromBE_toBE (n t : Nat) (h : t < 256 ^ n) : fromBE (toBE n t) = t := by
  induction n generalizing t with
  | zero =>
    have : t = 0 := by simpa using Nat.lt_one_iff.mp (by simpa using h)
    subst this
    rfl
  | succ n ih =>
    have hdiv : t / 256 < 256 ^ n := by
      apply Nat.div_lt_of_lt_mul
      exact lt_of_lt_of_eq h (by ring)
    rw [toBE]
    unfold fromBE
    rw [List.foldl_append]
    show (fromBE (toBE n (t / 256))) * 256 + t % 256 = t
    rw [ih _ hdiv]
    omega

theorem takeLine_noLF (l : List Nat) (h : l.all (fun b => b != 10) = true) :
    takeLine l = l := by
  induction l with
  | nil => rfl
  | cons b bs ih =>
    simp only [List.all_cons, Bool.and_eq_true, bne_iff_ne] at h
    rw [takeLine, if_neg h.1, ih h.2]

theorem takeLine_terminated (l' rest : List Nat)
    (h : l'.all (fun b => b != 10) = true) :
    takeLine (l' ++ [10] ++ rest) = l' ++ [10] := by
  induction l' with
  | nil => simp [takeLine]
  | cons b bs ih =>
    simp only [List.all_cons, Bool.and_eq_true, bne_iff_ne] at h
    simp only [List.cons_append]
    rw [takeLine, if_neg h.1, ih h.2]

/-- Every line satisfying `isCaptureLine` decomposes as a newline-free
prefix followed by one `\n`. -/
theorem isCaptureLine_decomp (l : List Nat) (h : isCaptureLine l = true) :
    ∃ l', l = l' ++ [10] ∧ l'.all (fun b => b != 10) = true := by
  induction l with
  | nil => simp [isCaptureLine] at h
  | cons b bs ih =>
    match bs with
    | [] =>
      simp only [isCaptureLine, List.isEmpty_cons, Bool.not_false,
        List.dropLast_single, List.all_nil, List.getLast?_singleton,
        Bool.true_and, Bool.and_eq_true, beq_iff_eq, Option.some.injEq] at h
      exact ⟨[], by simp [h], rfl⟩
    | c :: bs' =>
      simp only [isCaptureLine, List.isEmpty_cons, Bool.not_false,
        List.dropLast_cons₂, List.all_cons, List.getLast?_cons_cons,
        Bool.true_and, Bool.and_eq_true, bne_iff_ne] at h
      have htail : isCaptureLine (c :: bs') = true := by
        simp only [isCaptureLine, List.isEmpty_cons, Bool.not_false,
          Bool.true_and, Bool.and_eq_true]
        exact ⟨h.1.2, h.2⟩
      rcases ih htail with ⟨l', hl', hall⟩
      refine ⟨b :: l', by rw [List.cons_append, ← hl'], ?_⟩
      simp only [List.all_cons, Bool.and_eq_true, bne_iff_ne]
      exact ⟨h.1.1, hall⟩

theorem serializeStream_length_ge (recs : List (Nat × List Nat)) :
    recs.length ≤ (serializeStream recs).length := by
  induction recs with
  | nil => simp [serializeStream]
  | cons r rest ih =>
    simp only [serializeStream, List.map_cons, List.flatten_cons,
      List.length_append, List.length_cons, serializeRecord, toBE_length] at ih ⊢
    omega

theorem wfStream_tail (r : Nat × List Nat) (rest : List (Nat × List Nat))
    (h : wfStream (r :: rest) = true) : wfStream rest = true := by
  match rest with
  | [] => rfl
  | r' :: rest' =>
    have he : wfStream (r :: r' :: rest') =
        (decide (r.1 < 256 ^ 16) && isCaptureLine r.2 && wfStream (r' :: rest')) := rfl
    rw [he] at h
    simp only [Bool.and_eq_true] at h
    exact h.2

theorem wfStream_head (r : Nat × List Nat) (rest : List (Nat × List Nat))
    (h : wfStream (r :: rest) = true) :
    r.1 < 256 ^ 16 ∧ isFinalCaptureLine r.2 = true := by
  match rest with
  | [] =>
    rw [wfStream] at h
    simp only [Bool.and_eq_true, decide_eq_true_eq] at h
    exact h
  | r' :: rest' =>
    have he : wfStream (r :: r' :: rest') =
        (decide (r.1 < 256 ^ 16) && isCaptureLine r.2 && wfStream (r' :: rest')) := rfl
    rw [he] at h
    simp only [Bool.and_eq_true, decide_eq_true_eq] at h
    exact ⟨h.1.1, by simp [isFinalCaptureLine, h.1.2]⟩

theorem wfStream_head_mid (r : Nat × List Nat) (r' : Nat × List Nat)
    (rest' : List (Nat × List Nat)) (h : wfStream (r :: r' :: rest') = true) :
    isCaptureLine r.2 = true := by
  have he : wfStream (r :: r' :: rest') =
      (decide (r.1 < 256 ^ 16) && isCaptureLine r.2 && wfStream (r' :: rest')) := rfl
  rw [he] at h
  simp only [Bool.and_eq_true] at h
  exact h.1.2

theorem parseGo_serializeStream (recs : List (Nat × List Nat)) (f : Nat)
    (hf : recs.length ≤ f) (hwf : wfStream recs = true) :
    parseGo f (serializeStream recs) = recs := by
  induction recs generalizing f with
  | nil =>
    match f with
    | 0 => rfl
    | f + 1 => simp [parseGo, serializeStream]
  | cons r rest ih =>
    match f with
    | 0 => simp at hf
    | f + 1 =>
      obtain ⟨t, l⟩ := r
      have hhead := wfStream_head (t, l) rest hwf
      have hbytes : serializeStream ((t, l) :: rest) =
          toBE 16 t ++ (l ++ serializeStream rest) := by
        simp [serializeStream, serializeRecord, List.append_assoc]
      have hlnil : l ≠ [] := by
        rcases Bool.or_eq_true .. |>.mp hhead.2 with hc | hc
        · intro hl; subst hl; simp [isCaptureLine] at hc
        · intro hl; subst hl; simp at hc
      rw [hbytes, parseGo]
      have hlen : ¬ (toBE 16 t ++ (l ++ serializeStream rest)).length < 16 := by
        simp [toBE_length]
      rw [if_neg hlen]
      have htake : (toBE 16 t ++ (l ++ serializeStream rest)).take 16 = toBE 16 t :=
        List.take_left' (toBE_length 16 t)
      have hdrop : (toBE 16 t ++ (l ++ serializeStream rest)).drop 16 =
          l ++ serializeStream rest :=
        List.drop_left' (toBE_length 16 t)
      rw [htake, hdrop, fromBE_toBE 16 t hhead.1]
      have hline : takeLine (l ++ serializeStream rest) = l := by
        cases rest with
        | nil =>
          have hser : serializeStream ([] : List (Nat × List Nat)) = [] := rfl
          rw [hser, List.append_nil]
          rcases Bool.or_eq_true .. |>.mp hhead.2 with hc | hc
          · rcases isCaptureLine_decomp l hc with ⟨l', hl', hall⟩
            rw [hl']
            simpa using takeLine_terminated l' [] hall
          · simp only [Bool.and_eq_true] at hc
            exact takeLine_noLF l hc.2
        | cons r' rest' =>
          have hc := wfStream_head_mid (t, l) r' rest' hwf
          rcases isCaptureLine_decomp l hc with ⟨l', hl', hall⟩
          rw [hl']
          exact takeLine_terminated l' (serializeStream (r' :: rest')) hall
      rw [hline]
      have hne : ¬ (l.isEmpty = true) := by
        cases l
        · exact absurd rfl hlnil
        · simp
      rw [if_neg hne]
      rw [List.drop_left]
      rw [ih f (by simp at hf; omega) (wfStream_tail _ _ hwf)]

/-- C8: capture/replay round-trip.  For every well-formed sequence of
captured records (each line nonempty, newline-terminated with no interior
newline except that the final line may lack the terminator, and each
timestamp a `u128`), parsing the capture sink's bytes yields exactly the
same records — in particular the replayed line bytes equal the captured
line bytes — and the reader terminates cleanly at EOF on a record
boundary (the empty stream parses to no records). -/
theorem capture_roundtrip (recs : List (Nat × List Nat))
    (hwf : wfStream recs = true) :
    readStream (serializeStream recs) = recs ∧
    (readStream (serializeStream recs)).map (fun r => r.2) =
      recs.map (fun r => r.2) ∧
    readStream [] = [] := by
  have h : readStream (serializeStream recs) = recs :=
    parseGo_serializeStream recs (serializeStream recs).length
      (serializeStream_length_ge recs) hwf
  exact ⟨h, by rw [h], rfl⟩

/-- Witness for C8 at a concrete input: one terminated line and one
final line without a newline round-trip through the byte format. -/
theorem capture_roundtrip_witness :
    readStream (serializeStream [(0, [104, 10]), (5, [104, 105])]) =
      [(0, [104, 10]), (5, [104, 105])] ∧
    (readStream (serializeStream [(0, [104, 10]), (5, [104, 105])])).map
        (fun r => r.2) =
      [(0, [104, 10]), (5, [104, 105])].map (fun r => r.2) ∧
    readStream [] = [] :=
  capture_roundtrip [(0, [104, 10]), (5, [104, 105])] (by decide)

end Deja
